import Mathlib

/-!
Verification of the sh61 shell command-line lexer and layered grammar
parser (cs61 pset5, `sh61.hh`).

The repository ships the header `sh61.hh` only.  Everything implemented
inline in the header (`operator bool`, `empty`, `str`, the equality
operators, `end`, `token_begin`, `token_end`, the derived-class
constructors) is translated here directly from that source and is
authoritative.  The out-of-line members (`shell_parser` constructors,
`first_delimited`, `next_delimited`, `next_op`, the tokenizer scan and
`shell_tokenizer::str`) are not part of the given sources; those
definitions are modelled from the specification and say so in their doc
comments.

The character buffer is a `List Char`; C++ pointers become `Nat` indices
into that buffer.  All scanning functions are structurally recursive or
fuel-indexed so that every definition evaluates by kernel reduction.
-/

/-- Token type constants, from the `#define`s in `sh61.hh`. -/
def TYPE_NORMAL : Int := 0

/-- Redirection operator type (`>`, `<`, `2>`), from `sh61.hh`. -/
def TYPE_REDIRECT_OP : Int := 1

/-- Sequence operator `;`, from `sh61.hh`. -/
def TYPE_SEQUENCE : Int := 2

/-- End of command line, from `sh61.hh`. -/
def TYPE_EOL : Int := 3

/-- Background operator `&`, from `sh61.hh`. -/
def TYPE_BACKGROUND : Int := 4

/-- Pipe operator `|`, from `sh61.hh`. -/
def TYPE_PIPE : Int := 5

/-- Logical-and operator `&&`, from `sh61.hh`. -/
def TYPE_AND : Int := 6

/-- Logical-or operator `||`, from `sh61.hh`. -/
def TYPE_OR : Int := 7

/-- Open parenthesis `(`, from `sh61.hh`. -/
def TYPE_LPAREN : Int := 8

/-- Close parenthesis `)`, from `sh61.hh`. -/
def TYPE_RPAREN : Int := 9

/-- Single-quote character. -/
def squote : Char := Char.ofNat 39

/-- Double-quote character. -/
def dquote : Char := Char.ofNat 34

/-- Backslash character. -/
def bslash : Char := Char.ofNat 92

/-- Whitespace in the tokenizer sense (the `isspace` set). -/
def isShellWs (c : Char) : Bool :=
  c = ' ' || c = Char.ofNat 9 || c = Char.ofNat 10 ||
  c = Char.ofNat 11 || c = Char.ofNat 12 || c = Char.ofNat 13

/-- Number of leading whitespace characters. -/
def countWs : List Char → Nat
  | [] => 0
  | c :: rest => if isShellWs c then countWs rest + 1 else 0

/-- Single-character operator spellings and their token types
(`>`, `<`, `;`, `&`, `|`, `(`, `)`), per the spec's operator list. -/
def op1 (c : Char) : Option Int :=
  if c = '>' then some TYPE_REDIRECT_OP
  else if c = '<' then some TYPE_REDIRECT_OP
  else if c = ';' then some TYPE_SEQUENCE
  else if c = '&' then some TYPE_BACKGROUND
  else if c = '|' then some TYPE_PIPE
  else if c = '(' then some TYPE_LPAREN
  else if c = ')' then some TYPE_RPAREN
  else none

/-- Two-character operator spellings (`&&`, `||`, `2>`), matched greedily
before single-character ones, per the spec's longest-match rule. -/
def op2 (c1 c2 : Char) : Option Int :=
  if c1 = '&' && c2 = '&' then some TYPE_AND
  else if c1 = '|' && c2 = '|' then some TYPE_OR
  else if c1 = '2' && c2 = '>' then some TYPE_REDIRECT_OP
  else none

/-- Longest operator spelling at the head of the character list, with its
type and consumed length.  Modelled from the spec: step (4) of the
tokenizer "greedily matches the longest recognized operator spelling". -/
def opAt : List Char → Option (Int × Nat)
  | [] => none
  | [c] => (op1 c).map fun t => (t, 1)
  | c1 :: c2 :: _ =>
    match op2 c1 c2 with
    | some t => some (t, 2)
    | none => (op1 c1).map fun t => (t, 1)

/-- Modelled from the spec: the word scan of the tokenizer (steps 2, 3
and 5), with the shell word-joining rule.  `scanW cs mode` scans a word
starting at `cs`; `mode = some q` means the scan position is inside a
quote opened by `q`.  It returns the number of characters consumed, the
token's literal text (quote delimiters stripped, escapes resolved), and
whether any fragment was quoted.  The scan stops at unquoted whitespace
and at the start of an unquoted, unescaped operator; an unterminated
quote absorbs the remaining text. -/
def scanW : List Char → Option Char → Nat × List Char × Bool
  | [], none => (0, [], false)
  | [], some _ => (0, [], true)
  | c :: rest, some q =>
    if c = q then
      let r := scanW rest none
      (r.1 + 1, r.2.1, true)
    else
      let r := scanW rest (some q)
      (r.1 + 1, c :: r.2.1, true)
  | c :: rest, none =>
    if c = squote || c = dquote then
      let r := scanW rest (some c)
      (r.1 + 1, r.2.1, true)
    else if isShellWs c then (0, [], false)
    else if (opAt (c :: rest)).isSome then (0, [], false)
    else if c = bslash then
      match rest with
      | [] => (1, [], false)
      | d :: rest2 =>
        let r := scanW rest2 none
        (r.1 + 2, d :: r.2.1, r.2.2)
    else
      let r := scanW rest none
      (r.1 + 1, c :: r.2.1, r.2.2)

/-- Result of scanning one token at the head of a character region:
leading whitespace length, token length, token type, quoted flag, and
the token's literal text. -/
structure TokScan where
  ws : Nat
  len : Nat
  type : Int
  quoted : Bool
  text : List Char
deriving DecidableEq

/-- Modelled from the spec: scan the single token at the head of a
region (given as the region's character list).  Skips leading unquoted
whitespace; an empty rest reports an end-of-line token; otherwise the
longest operator spelling, else a word. -/
def tokScan (cs : List Char) : TokScan :=
  let w := countWs cs
  let cs2 := cs.drop w
  if cs2.isEmpty then ⟨w, 0, TYPE_EOL, false, []⟩
  else
    match opAt cs2 with
    | some tn => ⟨w, tn.2, tn.1, false, cs2.take tn.2⟩
    | none =>
      let r := scanW cs2 none
      ⟨w, r.1, TYPE_NORMAL, r.2.2, r.2.1⟩

/-- The half-open slice `[s, t)` of the buffer. -/
def sliceB (buf : List Char) (s t : Nat) : List Char :=
  (buf.drop s).take (t - s)

/-- The region type of `shell_parser` in `sh61.hh`: a span `[_s, _stop)`
of the buffer together with the region's outer boundary `_end`. -/
structure ShellParser where
  _s : Nat
  _stop : Nat
  _end : Nat
deriving DecidableEq

/-- The `shell_tokenizer` state of `sh61.hh`: current token start `_s`,
region end `_end`, and the current token's type, quoted flag and
length. -/
structure shell_tokenizer where
  _s : Nat
  _end : Nat
  _type : Int
  _quoted : Bool
  _len : Nat
deriving DecidableEq

/-- `shell_parser::operator bool` from `sh61.hh`: `_s != _stop`. -/
def ShellParser.toBool (p : ShellParser) : Bool := p._s != p._stop

/-- `shell_parser::empty` from `sh61.hh`: `_s == _stop`. -/
def ShellParser.empty (p : ShellParser) : Bool := p._s == p._stop

/-- `shell_parser::str` from `sh61.hh`: `std::string(_s, _stop - _s)`. -/
def ShellParser.str (buf : List Char) (p : ShellParser) : List Char :=
  sliceB buf p._s p._stop

/-- `shell_parser::operator==(const shell_parser&)` from `sh61.hh`. -/
def ShellParser.eqP (p q : ShellParser) : Bool :=
  p._s == q._s && p._stop == q._stop

/-- `shell_parser::operator!=(const shell_parser&)` from `sh61.hh`. -/
def ShellParser.neP (p q : ShellParser) : Bool :=
  p._s != q._s || p._stop != q._stop

/-- `shell_parser::operator==(const shell_tokenizer&)` from `sh61.hh`. -/
def ShellParser.eqT (p : ShellParser) (t : shell_tokenizer) : Bool :=
  p._s == t._s && p._stop == t._end

/-- `shell_parser::operator!=(const shell_tokenizer&)` from `sh61.hh`. -/
def ShellParser.neT (p : ShellParser) (t : shell_tokenizer) : Bool :=
  p._s != t._s || p._stop != t._end

/-- `shell_parser::end` from `sh61.hh`:
`shell_parser(_stop, _stop, _end)`. -/
def ShellParser.endp (p : ShellParser) : ShellParser :=
  ⟨p._stop, p._stop, p._end⟩

/-- `shell_tokenizer::operator bool` from `sh61.hh`: `_s != _end`. -/
def shell_tokenizer.toBool (t : shell_tokenizer) : Bool := t._s != t._end

/-- `shell_tokenizer::empty` from `sh61.hh`: `_s == _end`. -/
def shell_tokenizer.empty (t : shell_tokenizer) : Bool := t._s == t._end

/-- `shell_tokenizer::type` from `sh61.hh`: returns `_type`. -/
def shell_tokenizer.type (t : shell_tokenizer) : Int := t._type

/-- `shell_tokenizer::operator==(const shell_tokenizer&)` from
`sh61.hh`. -/
def shell_tokenizer.eqT (t u : shell_tokenizer) : Bool :=
  t._s == u._s && t._end == u._end

/-- `shell_tokenizer::operator!=(const shell_tokenizer&)` from
`sh61.hh`. -/
def shell_tokenizer.neT (t u : shell_tokenizer) : Bool :=
  t._s != u._s || t._end != u._end

/-- `shell_tokenizer::operator==(const shell_parser&)` from `sh61.hh`. -/
def shell_tokenizer.eqP (t : shell_tokenizer) (p : ShellParser) : Bool :=
  t._s == p._s && t._end == p._stop

/-- `shell_tokenizer::operator!=(const shell_parser&)` from `sh61.hh`. -/
def shell_tokenizer.neP (t : shell_tokenizer) (p : ShellParser) : Bool :=
  t._s != p._s || t._end != p._stop

/-- Modelled from the spec: the `shell_tokenizer(first, last)`
constructor, whose body is not in the given sources.  It scans the first
token of `[first, last)`: `_s` is the token's start (past leading
whitespace, so an all-whitespace or empty region yields `_s = _end` and
an end-of-line token). -/
def shell_tokenizer.mk2 (buf : List Char) (first last : Nat) : shell_tokenizer :=
  let t := tokScan (sliceB buf first last)
  ⟨first + t.ws, last, t.type, t.quoted, t.len⟩

/-- Modelled from the spec: `shell_tokenizer::operator++`, whose body is
not in the given sources: advance past the current token and scan the
next one. -/
def shell_tokenizer.inc (buf : List Char) (t : shell_tokenizer) : shell_tokenizer :=
  shell_tokenizer.mk2 buf (t._s + t._len) t._end

/-- Modelled from the spec: `shell_tokenizer::str`, whose body is not in
the given sources: the current token's literal text, with quote
delimiters stripped but quoted content preserved verbatim (spec section
4.1). Re-scans the token at `_s`. -/
def shell_tokenizer.str (buf : List Char) (t : shell_tokenizer) : List Char :=
  (tokScan (sliceB buf t._s t._end)).text

/-- `shell_parser::token_begin` from `sh61.hh`:
`shell_tokenizer(_s, _stop)`. -/
def ShellParser.token_begin (buf : List Char) (p : ShellParser) : shell_tokenizer :=
  shell_tokenizer.mk2 buf p._s p._stop

/-- `shell_parser::token_end` from `sh61.hh`:
`shell_tokenizer(_stop, _stop)`. -/
def ShellParser.token_end (buf : List Char) (p : ShellParser) : shell_tokenizer :=
  shell_tokenizer.mk2 buf p._stop p._stop

/-- Modelled from the spec: the `shell_parser(str)` constructor, whose
body is not in the given sources.  The region is the whole command line:
`start = 0`, `stop = bufferEnd = length`. -/
def ShellParser.fromStr (buf : List Char) : ShellParser :=
  ⟨0, buf.length, buf.length⟩

/-- Modelled from the spec: the `shell_parser(first, last)` constructor,
whose body is not in the given sources.  The region is the whole span
`[first, last)` with `bufferEnd = last`. -/
def ShellParser.mkRange (first last : Nat) : ShellParser :=
  ⟨first, last, last⟩

/-- Modelled from the spec: the delimiter scan shared by
`first_delimited` and `next_delimited` (spec section 4.2), fuel-indexed.
`findDelimF buf fl fuel pos stop depth` returns the start position of the
first top-level token in `[pos, stop)` whose type is in `fl` (depth zero
for the grouping operators, quotes already opaque at the token level), or
`stop` if there is none.  Fuel `stop - pos` always suffices. -/
def findDelimF (buf : List Char) (fl : List Int) :
    Nat → Nat → Nat → Nat → Nat
  | 0, _, stop, _ => stop
  | fuel + 1, pos, stop, depth =>
    let cs := sliceB buf pos stop
    if cs.isEmpty then stop
    else
      let t := tokScan cs
      if t.type = TYPE_EOL then stop
      else if depth = 0 && fl.contains t.type then pos + t.ws
      else if t.type = TYPE_LPAREN then
        findDelimF buf fl fuel (pos + t.ws + t.len) stop (depth + 1)
      else if t.type = TYPE_RPAREN then
        findDelimF buf fl fuel (pos + t.ws + t.len) stop (depth - 1)
      else findDelimF buf fl fuel (pos + t.ws + t.len) stop depth

/-- The delimiter scan with its sufficient fuel. -/
def findDelim (buf : List Char) (fl : List Int) (pos stop : Nat) : Nat :=
  findDelimF buf fl (stop - pos) pos stop 0

/-- Modelled from the spec: `shell_parser::first_delimited(fl)` (spec
sections 4.2 and 4.3): the sub-region from the current start up to the
first top-level delimiter in `fl`, or up to the region's own stop.  The
sub-region's outer boundary is the parent's stop, so that the
sub-region's own `next_delimited` stays within the parent's span. -/
def ShellParser.first_delimited (buf : List Char) (fl : List Int) (p : ShellParser) :
    ShellParser :=
  ⟨p._s, findDelim buf fl p._s p._stop, p._stop⟩

/-- Modelled from the spec: `shell_parser::next_delimited(fl)` (spec
section 4.2): skip exactly one full delimiter token at `_stop`
(multi-character operators consumed as one unit; at the region's end the
end-of-line token has length zero), then behave as `first_delimited`
from the new position. -/
def ShellParser.next_delimited (buf : List Char) (fl : List Int) (p : ShellParser) :
    ShellParser :=
  let t := tokScan (sliceB buf p._stop p._end)
  let s2 := p._stop + t.ws + t.len
  ⟨s2, findDelim buf fl s2 p._end, p._end⟩

/-- Modelled from the spec: `shell_parser::next_op` (spec section 4.2):
non-mutating lookahead classifying the operator token (or end-of-line)
immediately following the current region. -/
def ShellParser.next_op (buf : List Char) (p : ShellParser) : Int :=
  (tokScan (sliceB buf p._stop p._end)).type

/-- Delimiter set splitting a command line into conditionals:
`;` and `&` (end-of-line ends the scan), spec section 4.3. -/
def CONDITIONAL_DELIM : List Int := [TYPE_SEQUENCE, TYPE_BACKGROUND]

/-- Delimiter set splitting a conditional into pipelines: `&&`, `||`. -/
def PIPELINE_DELIM : List Int := [TYPE_AND, TYPE_OR]

/-- Delimiter set splitting a pipeline into commands: `|`. -/
def COMMAND_DELIM : List Int := [TYPE_PIPE]

/-- `command_line_parser::conditional_begin`, modelled from the spec:
`first_delimited` with the conditional delimiter set. -/
def ShellParser.conditional_begin (buf : List Char) (p : ShellParser) : ShellParser :=
  p.first_delimited buf CONDITIONAL_DELIM

/-- `conditional_parser::pipeline_begin`, modelled from the spec:
`first_delimited` with the pipeline delimiter set. -/
def ShellParser.pipeline_begin (buf : List Char) (p : ShellParser) : ShellParser :=
  p.first_delimited buf PIPELINE_DELIM

/-- `pipeline_parser::command_begin`, modelled from the spec:
`first_delimited` with the command delimiter set. -/
def ShellParser.command_begin (buf : List Char) (p : ShellParser) : ShellParser :=
  p.first_delimited buf COMMAND_DELIM

/-- `conditional_parser::operator++`, modelled from the spec:
`next_delimited` with the conditional delimiter set. -/
def ShellParser.conditional_next (buf : List Char) (p : ShellParser) : ShellParser :=
  p.next_delimited buf CONDITIONAL_DELIM

/-- `pipeline_parser::operator++`, modelled from the spec:
`next_delimited` with the pipeline delimiter set. -/
def ShellParser.pipeline_next (buf : List Char) (p : ShellParser) : ShellParser :=
  p.next_delimited buf PIPELINE_DELIM

/-- `command_parser::operator++`, modelled from the spec:
`next_delimited` with the command delimiter set. -/
def ShellParser.command_next (buf : List Char) (p : ShellParser) : ShellParser :=
  p.next_delimited buf COMMAND_DELIM

/-- Well-formedness of a region over a buffer: the pointer invariant
`_s ≤ _stop ≤ _end` of the spec, with `_end` inside the buffer. -/
def ShellParser.wf (buf : List Char) (p : ShellParser) : Prop :=
  p._s ≤ p._stop ∧ p._stop ≤ p._end ∧ p._end ≤ buf.length

instance (buf : List Char) (p : ShellParser) : Decidable (p.wf buf) :=
  inferInstanceAs (Decidable (_ ∧ _ ∧ _))

/-- The sibling segments of a region under delimiter set `fl`: the region
itself, then repeated `next_delimited`, until the region is exhausted
(`_s = _end`).  Fuel-indexed; fuel `_end - _s + 1` always suffices. -/
def segmentsF (buf : List Char) (fl : List Int) :
    Nat → ShellParser → List ShellParser
  | 0, _ => []
  | fuel + 1, p =>
    if p._s = p._end then []
    else p :: segmentsF buf fl fuel (p.next_delimited buf fl)

/-- The segments of a region with sufficient fuel. -/
def segments (buf : List Char) (fl : List Int) (p : ShellParser) : List ShellParser :=
  segmentsF buf fl (p._end - p._s + 1) p

/-- Concatenation of the text spans of all sibling segments of a region,
interleaved with the separator text consumed between consecutive
segments (`sliceB buf _stop _s'`, which for parser-produced regions is
exactly the consumed delimiter token). -/
def reconsF (buf : List Char) (fl : List Int) :
    Nat → ShellParser → List Char
  | 0, _ => []
  | fuel + 1, p =>
    if p._s = p._end then []
    else
      p.str buf ++ sliceB buf p._stop (p.next_delimited buf fl)._s ++
        reconsF buf fl fuel (p.next_delimited buf fl)

/-- The token list of a tokenizer: the current token, then repeated
`operator++`, until the tokenizer is empty.  Fuel-indexed. -/
def tokListAux (buf : List Char) : Nat → shell_tokenizer → List shell_tokenizer
  | 0, _ => []
  | fuel + 1, t =>
    if t._s = t._end then []
    else t :: tokListAux buf fuel (t.inc buf)

/-- All tokens of a region, via `token_begin` and repeated advance. -/
def ShellParser.tokens (buf : List Char) (p : ShellParser) : List shell_tokenizer :=
  tokListAux buf (p._stop - p._s + 1) (p.token_begin buf)

/-- Modelled from the spec: the Command-level pairing rule (spec section
4.3): each redirect-operator token pairs with the word token immediately
following it; all other word tokens are positional arguments.  Input is
the command's token stream as (type, text) pairs; output is the argument
list and the list of (operator, target) redirections. -/
def pairRedirections :
    List (Int × List Char) → List (List Char) × List (List Char × List Char)
  | [] => ([], [])
  | [(ty, tx)] => if ty = TYPE_NORMAL then ([tx], []) else ([], [])
  | (ty, tx) :: (ty2, tx2) :: rest =>
    if ty = TYPE_REDIRECT_OP then
      if ty2 = TYPE_NORMAL then
        let r := pairRedirections rest
        (r.1, (tx, tx2) :: r.2)
      else pairRedirections ((ty2, tx2) :: rest)
    else if ty = TYPE_NORMAL then
      let r := pairRedirections ((ty2, tx2) :: rest)
      (tx :: r.1, r.2)
    else pairRedirections ((ty2, tx2) :: rest)

/-- The example command line of spec section 8 for quoting. -/
def bufQuote : List Char := "echo \"a;b\"".toList

/-- The command region of `bufQuote`, reached through the full
conditional/pipeline/command chain. -/
def cmdQuote : ShellParser :=
  (((ShellParser.fromStr bufQuote).conditional_begin bufQuote).pipeline_begin
    bufQuote).command_begin bufQuote

/-- The example command line of spec section 8 for precedence. -/
def bufPrec : List Char := "cmd1 && cmd2 || cmd3".toList

/-- The conditional segments of `bufPrec`. -/
def condsPrec : List ShellParser :=
  segments bufPrec CONDITIONAL_DELIM
    ((ShellParser.fromStr bufPrec).conditional_begin bufPrec)

/-- The pipeline segments of the first conditional of `bufPrec`. -/
def pipesPrec : List ShellParser :=
  segments bufPrec PIPELINE_DELIM
    (((ShellParser.fromStr bufPrec).conditional_begin bufPrec).pipeline_begin
      bufPrec)

/-- The example command line of spec section 8 for the background
marker. -/
def bufBg : List Char := "sleep 1 &".toList

/-- The (single) conditional region of `bufBg`. -/
def condBg : ShellParser := (ShellParser.fromStr bufBg).conditional_begin bufBg

/-- The example command line of spec section 8 for redirection. -/
def bufRedir : List Char := "cat < in > out".toList

/-- The command region of `bufRedir`, reached through the full
conditional/pipeline/command chain. -/
def cmdRedir : ShellParser :=
  (((ShellParser.fromStr bufRedir).conditional_begin bufRedir).pipeline_begin
    bufRedir).command_begin bufRedir

/-- The token stream of `cmdRedir` as (type, text) pairs. -/
def tksRedir : List (Int × List Char) :=
  (cmdRedir.tokens bufRedir).map (fun t => (t.type, t.str bufRedir))

/-- Claim C9: `operator bool` is true exactly when the region is
non-empty (`_s != _stop`), `empty` is its exact negation, so
`bool(p) = !p.empty()` always holds; the same relation holds for
`shell_tokenizer` (bool true iff tokens remain, i.e. `_s != _end`). -/
theorem bool_empty_negation :
    ∀ (p : ShellParser) (t : shell_tokenizer),
    p.toBool = !p.empty ∧
    (p.toBool = true ↔ p._s ≠ p._stop) ∧
    (p.empty = true ↔ p._s = p._stop) ∧
    t.toBool = !t.empty ∧
    (t.toBool = true ↔ t._s ≠ t._end) ∧
    (t.empty = true ↔ t._s = t._end) := by
  intro p t
  refine ⟨rfl, ?_, ?_, rfl, ?_, ?_⟩ <;>
    simp [ShellParser.toBool, ShellParser.empty, shell_tokenizer.toBool,
      shell_tokenizer.empty]

/-- Claim C10: equality of parsers and tokenizers is purely positional:
parsers compare equal iff `_s` and `_stop` agree (the buffer end `_end`
is ignored), tokenizers compare equal iff `_s` and `_end` agree (type,
quoted flag and length are ignored), and each `operator!=` — including
the cross-type ones — is the exact negation of the matching
`operator==`. -/
theorem equality_positional :
    ∀ (p q : ShellParser) (t u : shell_tokenizer),
    (p.eqP q = true ↔ (p._s = q._s ∧ p._stop = q._stop)) ∧
    p.neP q = !(p.eqP q) ∧
    (t.eqT u = true ↔ (t._s = u._s ∧ t._end = u._end)) ∧
    t.neT u = !(t.eqT u) ∧
    (p.eqT t = true ↔ (p._s = t._s ∧ p._stop = t._end)) ∧
    p.neT t = !(p.eqT t) ∧
    (t.eqP p = true ↔ (t._s = p._s ∧ t._end = p._stop)) ∧
    t.neP p = !(t.eqP p) := by
  intro p q t u
  refine ⟨?_, ?_, ?_, ?_, ?_, ?_, ?_, ?_⟩ <;>
    simp [ShellParser.eqP, ShellParser.neP, shell_tokenizer.eqT,
      shell_tokenizer.neT, ShellParser.eqT, ShellParser.neT,
      shell_tokenizer.eqP, shell_tokenizer.neP, bne, Bool.not_and]

/-- Claim C5: tokenizing the command `echo "a;b"` yields exactly the
token stream word `echo` (unquoted) then word `a;b` (quoted): the quoted
fragment is one word token of type normal, not split at the semicolon,
and `str()` strips the quote delimiters while preserving the enclosed
content verbatim; exactly one token has text `a;b`. -/
theorem quoting_single_token :
    (cmdQuote.tokens bufQuote).map
        (fun t => (t.type, t.str bufQuote, t._quoted)) =
      [(TYPE_NORMAL, "echo".toList, false), (TYPE_NORMAL, "a;b".toList, true)] ∧
    ((cmdQuote.tokens bufQuote).filter
        (fun t => t.str bufQuote == "a;b".toList)).length = 1 := by
  decide

/-- Claim C6: parsing `cmd1 && cmd2 || cmd3` yields exactly one
conditional, that conditional splits into exactly three pipeline
segments, and the boolean joins recorded between them (`next_op` of each
segment) are `&&` then `||` in left-to-right order, the last segment
ending at end-of-line: no implicit regrouping. -/
theorem precedence_three_pipelines :
    condsPrec = [⟨0, 20, 20⟩] ∧
    pipesPrec = [⟨0, 5, 20⟩, ⟨7, 13, 20⟩, ⟨15, 20, 20⟩] ∧
    pipesPrec.map (fun p => p.next_op bufPrec) =
      [TYPE_AND, TYPE_OR, TYPE_EOL] := by
  decide

/-- Claim C7: parsing `sleep 1 &` yields exactly one conditional, and
`next_op` on that conditional — a pure lookahead, so the region itself
is unchanged — reports `TYPE_BACKGROUND`, not `TYPE_SEQUENCE`. -/
theorem background_marker_next_op :
    segments bufBg CONDITIONAL_DELIM condBg = [⟨0, 8, 9⟩] ∧
    condBg.next_op bufBg = TYPE_BACKGROUND ∧
    TYPE_BACKGROUND ≠ TYPE_SEQUENCE := by
  decide

/-- Claim C8: tokenizing `cat < in > out` yields the token stream
word `cat`, redirect `<`, word `in`, redirect `>`, word `out`, and the
pairing rule yields redirections `(<, in)` and `(>, out)` with argument
list `[cat]`. -/
theorem redirection_token_stream :
    tksRedir = [(TYPE_NORMAL, "cat".toList), (TYPE_REDIRECT_OP, "<".toList),
        (TYPE_NORMAL, "in".toList), (TYPE_REDIRECT_OP, ">".toList),
        (TYPE_NORMAL, "out".toList)] ∧
    pairRedirections tksRedir =
      (["cat".toList], [("<".toList, "in".toList), (">".toList, "out".toList)]) := by
  decide

theorem countWs_le (cs : List Char) : countWs cs ≤ cs.length := by
  induction cs with
  | nil => simp [countWs]
  | cons c rest ih =>
    simp only [countWs, List.length_cons]
    split <;> omega

theorem countWs_drop (cs : List Char) : countWs (cs.drop (countWs cs)) = 0 := by
  induction cs with
  | nil => simp [countWs]
  | cons c rest ih =>
    by_cases h : isShellWs c = true
    · simpa [countWs, h] using ih
    · simp [countWs, h]

theorem countWs_zero_head (c : Char) (r : List Char)
    (h : countWs (c :: r) = 0) : isShellWs c = false := by
  by_contra hc
  simp only [countWs, Bool.not_eq_false] at hc h
  simp [hc] at h

theorem opAt_some (cs : List Char) (tn : Int × Nat) (h : opAt cs = some tn) :
    1 ≤ tn.2 ∧ tn.2 ≤ cs.length := by
  match cs with
  | [] => simp [opAt] at h
  | [c] =>
    simp only [opAt, Option.map_eq_some'] at h
    obtain ⟨t, -, rfl⟩ := h
    simp
  | c1 :: c2 :: rest =>
    simp only [opAt] at h
    split at h
    · cases h; simp
    · simp only [Option.map_eq_some'] at h
      obtain ⟨t, -, rfl⟩ := h
      simp

theorem scanW_le (cs : List Char) (m : Option Char) :
    (scanW cs m).1 ≤ cs.length := by
  induction cs, m using scanW.induct with
  | case1 => simp [scanW]
  | case2 q => simp [scanW]
  | case3 rest q ih => simp [scanW]; omega
  | case4 c rest q hne ih => simp [scanW, hne]; omega
  | case5 c rest hq ih =>
    rw [scanW.eq_def]
    simp [hq]
    omega
  | case6 c rest hq hws =>
    rw [scanW.eq_def]
    simp [hq, hws]
  | case7 c rest hq hws hop =>
    rw [scanW.eq_def]
    simp [hq, hws, hop]
  | case8 h1 h2 h3 =>
    rw [scanW.eq_def]
    simp [h1, h2, h3]
  | case9 c rest h1 h2 h3 ih =>
    rw [scanW.eq_def]
    simp [h1, h2, h3]
    omega
  | case10 c rest h1 h2 h3 hb ih =>
    rw [scanW.eq_def]
    simp [h1, h2, h3, hb]
    omega

theorem scanW_pos (c : Char) (r : List Char)
    (hw : isShellWs c = false) (ho : opAt (c :: r) = none) :
    1 ≤ (scanW (c :: r) none).1 := by
  rw [scanW.eq_def]
  by_cases hq : (decide (c = squote) || decide (c = dquote)) = true
  · simp [hq]
  · by_cases hb : c = bslash
    · subst hb
      cases r with
      | nil => simp [hq, hw, ho]
      | cons d r2 => simp [hq, hw, ho]
    · simp [hq, hw, ho, hb]

theorem tokScan_ws (cs : List Char) : (tokScan cs).ws = countWs cs := by
  simp only [tokScan]
  split
  · rfl
  · split <;> rfl

theorem tokScan_le (cs : List Char) :
    (tokScan cs).ws + (tokScan cs).len ≤ cs.length := by
  have hws := countWs_le cs
  simp only [tokScan]
  cases hx : cs.drop (countWs cs) with
  | nil => simp; omega
  | cons c r =>
    have hlen : (c :: r).length = cs.length - countWs cs := by
      rw [← hx, List.length_drop]
    have hlen2 : r.length + 1 = cs.length - countWs cs := by
      simpa using hlen
    cases hop : opAt (c :: r) with
    | some tn =>
      have hb := opAt_some _ _ hop
      have hb2 : tn.2 ≤ r.length + 1 := by simpa using hb.2
      simp
      omega
    | none =>
      have hw := scanW_le (c :: r) none
      have hw2 : (scanW (c :: r) none).1 ≤ r.length + 1 := by simpa using hw
      simp
      omega

theorem tokScan_pos (cs : List Char) (h : cs ≠ []) :
    1 ≤ (tokScan cs).ws + (tokScan cs).len := by
  have hone : 1 ≤ cs.length := by
    cases cs with
    | nil => simp at h
    | cons a b => simp
  simp only [tokScan]
  cases hx : cs.drop (countWs cs) with
  | nil =>
    have hle : cs.length ≤ countWs cs := List.drop_eq_nil_iff.mp hx
    simp
    omega
  | cons c r =>
    cases hop : opAt (c :: r) with
    | some tn =>
      have := opAt_some _ _ hop
      simp
      omega
    | none =>
      have hhead : isShellWs c = false := by
        have h2 := countWs_drop cs
        rw [hx] at h2
        exact countWs_zero_head c r h2
      have := scanW_pos c r hhead hop
      simp
      omega

theorem sliceB_self (buf : List Char) (s : Nat) : sliceB buf s s = [] := by
  simp [sliceB]

theorem sliceB_length (buf : List Char) (s t : Nat) :
    (sliceB buf s t).length = min (t - s) (buf.length - s) := by
  simp [sliceB]

theorem sliceB_append (buf : List Char) (s m t : Nat) (h1 : s ≤ m) (h2 : m ≤ t) :
    sliceB buf s m ++ sliceB buf m t = sliceB buf s t := by
  unfold sliceB
  have hd : buf.drop m = (buf.drop s).drop (m - s) := by
    rw [List.drop_drop]
    congr 1
    omega
  rw [hd, show t - s = (m - s) + (t - m) from by omega, List.take_add]

theorem sliceB_drop (buf : List Char) (s t n : Nat) :
    (sliceB buf s t).drop n = sliceB buf (s + n) t := by
  unfold sliceB
  have hs : t - s - n = t - (s + n) := by omega
  rw [List.drop_take, List.drop_drop, hs]

theorem findDelimF_stopped (buf : List Char) (fl : List Int) (f pos stop d : Nat)
    (h : stop ≤ pos) : findDelimF buf fl f pos stop d = stop := by
  cases f with
  | zero => rfl
  | succ f2 =>
    have hemp : (sliceB buf pos stop).isEmpty = true := by
      rw [List.isEmpty_iff]
      simp [sliceB, Nat.sub_eq_zero_of_le h]
    simp [findDelimF, hemp]

theorem sliceB_le_sub (buf : List Char) (pos stop : Nat) :
    (sliceB buf pos stop).length ≤ stop - pos := by
  rw [sliceB_length]
  exact Nat.min_le_left _ _

theorem findDelimF_bounds (buf : List Char) (fl : List Int) (f : Nat) :
    ∀ (pos stop d : Nat), pos ≤ stop →
      pos ≤ findDelimF buf fl f pos stop d ∧
        findDelimF buf fl f pos stop d ≤ stop := by
  induction f with
  | zero =>
    intro pos stop d h
    simp only [findDelimF]
    omega
  | succ f2 ih =>
    intro pos stop d h
    have hle := tokScan_le (sliceB buf pos stop)
    have hlen := sliceB_le_sub buf pos stop
    simp only [findDelimF]
    split
    · omega
    · split
      · omega
      · split
        · omega
        · have hrec : pos + (tokScan (sliceB buf pos stop)).ws +
              (tokScan (sliceB buf pos stop)).len ≤ stop := by omega
          split
          · obtain ⟨a, b⟩ := ih _ _ _ hrec
            exact ⟨by omega, b⟩
          · split
            · obtain ⟨a, b⟩ := ih _ _ _ hrec
              exact ⟨by omega, b⟩
            · obtain ⟨a, b⟩ := ih _ _ _ hrec
              exact ⟨by omega, b⟩

theorem findDelimF_fuel (buf : List Char) (fl : List Int) (f : Nat) :
    ∀ (g pos stop d : Nat), stop - pos ≤ f → stop - pos ≤ g →
      findDelimF buf fl f pos stop d = findDelimF buf fl g pos stop d := by
  induction f with
  | zero =>
    intro g pos stop d hf hg
    have h : stop ≤ pos := by omega
    rw [findDelimF_stopped buf fl _ _ _ _ h, findDelimF_stopped buf fl _ _ _ _ h]
  | succ f2 ih =>
    intro g pos stop d hf hg
    by_cases hps : stop ≤ pos
    · rw [findDelimF_stopped buf fl _ _ _ _ hps,
        findDelimF_stopped buf fl _ _ _ _ hps]
    · match g with
      | 0 => omega
      | g2 + 1 =>
        simp only [findDelimF]
        split
        · rfl
        · rename_i hemp
          have hne : sliceB buf pos stop ≠ [] :=
            fun hn => hemp (List.isEmpty_iff.mpr hn)
          have hpos := tokScan_pos _ hne
          split
          · rfl
          · split
            · rfl
            · have hf2 : stop - (pos + (tokScan (sliceB buf pos stop)).ws +
                  (tokScan (sliceB buf pos stop)).len) ≤ f2 := by omega
              have hg2 : stop - (pos + (tokScan (sliceB buf pos stop)).ws +
                  (tokScan (sliceB buf pos stop)).len) ≤ g2 := by omega
              split
              · exact ih _ _ _ _ hf2 hg2
              · split
                · exact ih _ _ _ _ hf2 hg2
                · exact ih _ _ _ _ hf2 hg2

theorem findDelimF_clean (buf : List Char) (fl : List Int) (f : Nat) :
    ∀ (pos stop d : Nat),
      countWs (sliceB buf (findDelimF buf fl f pos stop d) stop) = 0 := by
  induction f with
  | zero =>
    intro pos stop d
    simp [findDelimF, sliceB_self, countWs]
  | succ f2 ih =>
    intro pos stop d
    simp only [findDelimF]
    split
    · simp [sliceB_self, countWs]
    · split
      · simp [sliceB_self, countWs]
      · split
        · rw [← sliceB_drop, tokScan_ws]
          exact countWs_drop _
        · split
          · exact ih _ _ _
          · split
            · exact ih _ _ _
            · exact ih _ _ _

theorem next_s_le_end (buf : List Char) (fl : List Int) (p : ShellParser)
    (h : p._stop ≤ p._end) : (p.next_delimited buf fl)._s ≤ p._end := by
  have hle := tokScan_le (sliceB buf p._stop p._end)
  have hlen := sliceB_le_sub buf p._stop p._end
  simp only [ShellParser.next_delimited]
  omega

theorem next_delimited_wf (buf : List Char) (fl : List Int) (p : ShellParser)
    (h : p.wf buf) : (p.next_delimited buf fl).wf buf := by
  obtain ⟨h1, h2, h3⟩ := h
  have hs2 := next_s_le_end buf fl p h2
  simp only [ShellParser.next_delimited] at hs2 ⊢
  have hb := findDelimF_bounds buf fl
    (p._end - (p._stop + (tokScan (sliceB buf p._stop p._end)).ws +
      (tokScan (sliceB buf p._stop p._end)).len))
    (p._stop + (tokScan (sliceB buf p._stop p._end)).ws +
      (tokScan (sliceB buf p._stop p._end)).len) p._end 0 hs2
  exact ⟨hb.1, hb.2, h3⟩

theorem first_delimited_wf (buf : List Char) (fl : List Int) (p : ShellParser)
    (h : p.wf buf) : (p.first_delimited buf fl).wf buf := by
  obtain ⟨h1, h2, h3⟩ := h
  have hb := findDelimF_bounds buf fl (p._stop - p._s) p._s p._stop 0 h1
  exact ⟨hb.1, hb.2, le_trans h2 h3⟩

theorem next_delimited_progress (buf : List Char) (fl : List Int) (p : ShellParser)
    (h : p.wf buf) (hne : p._s ≠ p._end) :
    p._s < (p.next_delimited buf fl)._s := by
  obtain ⟨h1, h2, h3⟩ := h
  simp only [ShellParser.next_delimited]
  rcases Nat.lt_or_ge p._s p._stop with hlt | hge
  · omega
  · have hse : p._s = p._stop := by omega
    have hstop : p._stop < p._end := by omega
    have hlen : 1 ≤ (sliceB buf p._stop p._end).length := by
      rw [sliceB_length]
      omega
    have hnn : sliceB buf p._stop p._end ≠ [] := by
      intro hn
      rw [hn] at hlen
      simp at hlen
    have := tokScan_pos _ hnn
    omega

theorem reconsF_eq (buf : List Char) (fl : List Int) (f : Nat) :
    ∀ (p : ShellParser), p.wf buf → p._end - p._s ≤ f →
      reconsF buf fl f p = sliceB buf p._s p._end := by
  induction f with
  | zero =>
    intro p hwf hf
    have hse : p._s = p._end := by
      obtain ⟨h1, h2, h3⟩ := hwf
      omega
    rw [hse]
    simp [reconsF, sliceB_self]
  | succ f2 ih =>
    intro p hwf hf
    simp only [reconsF]
    split
    · rename_i hse
      rw [hse, sliceB_self]
    · rename_i hse
      have hwf2 := next_delimited_wf buf fl p hwf
      have hprog := next_delimited_progress buf fl p hwf hse
      have hend : (p.next_delimited buf fl)._end = p._end := rfl
      have hstop_le : p._stop ≤ (p.next_delimited buf fl)._s := by
        simp only [ShellParser.next_delimited]
        omega
      have hs2e : (p.next_delimited buf fl)._s ≤ p._end := by
        obtain ⟨a, b, c⟩ := hwf2
        omega
      rw [ih _ hwf2 (by omega)]
      rw [hend, ShellParser.str, List.append_assoc]
      rw [sliceB_append buf p._stop (p.next_delimited buf fl)._s p._end
        hstop_le hs2e]
      exact sliceB_append buf p._s p._stop p._end hwf.1 hwf.2.1

/-- Claim C3: for every command line, concatenating the text spans of
all its conditional segments — obtained by `conditional_begin` followed
by repeated advance — interleaved with the separator tokens consumed
between them, exactly reconstructs the original line. -/
theorem conditional_partition_complete (buf : List Char) :
    reconsF buf CONDITIONAL_DELIM (buf.length + 1)
      ((ShellParser.fromStr buf).conditional_begin buf) = buf := by
  have hw0 : (ShellParser.fromStr buf).wf buf :=
    ⟨Nat.zero_le _, le_refl _, le_refl _⟩
  have hq := first_delimited_wf buf CONDITIONAL_DELIM (ShellParser.fromStr buf) hw0
  have hfe : ((ShellParser.fromStr buf).first_delimited buf CONDITIONAL_DELIM)._end
      = buf.length := rfl
  have hfuel : ((ShellParser.fromStr buf).first_delimited buf CONDITIONAL_DELIM)._end -
      ((ShellParser.fromStr buf).first_delimited buf CONDITIONAL_DELIM)._s ≤
        buf.length + 1 := by
    rw [hfe]
    omega
  show reconsF buf CONDITIONAL_DELIM (buf.length + 1)
      ((ShellParser.fromStr buf).first_delimited buf CONDITIONAL_DELIM) = buf
  rw [reconsF_eq buf CONDITIONAL_DELIM (buf.length + 1) _ hq hfuel]
  show sliceB buf 0 buf.length = buf
  simp [sliceB]

/-- Claim C1: the navigation operations are total over well-formed
pointer ranges.  The delimiter scan is fuel-independent once the fuel
covers the remaining span (so the C++ loop terminates), its result stays
inside the region, `first_delimited` and `next_delimited` always produce
in-bounds (well-formed) regions, and `next_delimited` makes monotonic
forward progress — strict until the region is exhausted. -/
theorem navigation_total_progress (buf : List Char) (fl : List Int)
    (p : ShellParser) (f g : Nat) (hwf : p.wf buf)
    (hf : p._stop - p._s ≤ f) (hg : p._stop - p._s ≤ g) :
    findDelimF buf fl f p._s p._stop 0 = findDelimF buf fl g p._s p._stop 0 ∧
    p._s ≤ findDelim buf fl p._s p._stop ∧
    findDelim buf fl p._s p._stop ≤ p._stop ∧
    (p.first_delimited buf fl).wf buf ∧
    p._s ≤ (p.next_delimited buf fl)._s ∧
    (p.next_delimited buf fl)._s ≤ p._end ∧
    (p.next_delimited buf fl).wf buf ∧
    (p._s = p._end ∨ p._s < (p.next_delimited buf fl)._s) := by
  obtain ⟨h1, h2, h3⟩ := hwf
  refine ⟨findDelimF_fuel buf fl f g p._s p._stop 0 hf hg, ?_, ?_, ?_, ?_, ?_, ?_, ?_⟩
  · exact (findDelimF_bounds buf fl _ _ _ _ h1).1
  · exact (findDelimF_bounds buf fl _ _ _ _ h1).2
  · exact first_delimited_wf buf fl p ⟨h1, h2, h3⟩
  · have : p._stop ≤ (p.next_delimited buf fl)._s := by
      simp only [ShellParser.next_delimited]
      omega
    omega
  · exact next_s_le_end buf fl p h2
  · exact next_delimited_wf buf fl p ⟨h1, h2, h3⟩
  · by_cases hne : p._s = p._end
    · exact Or.inl hne
    · exact Or.inr (next_delimited_progress buf fl p ⟨h1, h2, h3⟩ hne)

/-- Witness for C1 at the command line `a;b`, region `[0, 1)` with
buffer end 3, fuels 3 and 7. -/
theorem navigation_total_progress_witness :
    (⟨0, 1, 3⟩ : ShellParser).wf ("a;b".toList) ∧ 1 - 0 ≤ 3 ∧ 1 - 0 ≤ 7 ∧
    (findDelimF ("a;b".toList) CONDITIONAL_DELIM 3 (⟨0, 1, 3⟩ : ShellParser)._s
        (⟨0, 1, 3⟩ : ShellParser)._stop 0 =
      findDelimF ("a;b".toList) CONDITIONAL_DELIM 7 (⟨0, 1, 3⟩ : ShellParser)._s
        (⟨0, 1, 3⟩ : ShellParser)._stop 0 ∧
    (⟨0, 1, 3⟩ : ShellParser)._s ≤ findDelim ("a;b".toList) CONDITIONAL_DELIM
        (⟨0, 1, 3⟩ : ShellParser)._s (⟨0, 1, 3⟩ : ShellParser)._stop ∧
    findDelim ("a;b".toList) CONDITIONAL_DELIM (⟨0, 1, 3⟩ : ShellParser)._s
        (⟨0, 1, 3⟩ : ShellParser)._stop ≤ (⟨0, 1, 3⟩ : ShellParser)._stop ∧
    ((⟨0, 1, 3⟩ : ShellParser).first_delimited ("a;b".toList)
        CONDITIONAL_DELIM).wf ("a;b".toList) ∧
    (⟨0, 1, 3⟩ : ShellParser)._s ≤
      ((⟨0, 1, 3⟩ : ShellParser).next_delimited ("a;b".toList)
        CONDITIONAL_DELIM)._s ∧
    ((⟨0, 1, 3⟩ : ShellParser).next_delimited ("a;b".toList)
        CONDITIONAL_DELIM)._s ≤ (⟨0, 1, 3⟩ : ShellParser)._end ∧
    ((⟨0, 1, 3⟩ : ShellParser).next_delimited ("a;b".toList)
        CONDITIONAL_DELIM).wf ("a;b".toList) ∧
    ((⟨0, 1, 3⟩ : ShellParser)._s = (⟨0, 1, 3⟩ : ShellParser)._end ∨
      (⟨0, 1, 3⟩ : ShellParser)._s <
        ((⟨0, 1, 3⟩ : ShellParser).next_delimited ("a;b".toList)
          CONDITIONAL_DELIM)._s)) :=
  ⟨by decide, by decide, by decide,
    navigation_total_progress ("a;b".toList) CONDITIONAL_DELIM ⟨0, 1, 3⟩ 3 7
      (by decide) (by decide) (by decide)⟩

/-- Claim C2: the region invariant `_s ≤ _stop ≤ _end` holds for every
region produced by the constructors, is preserved by `first_delimited`,
`next_delimited`, `end()` and each parser's advance, and a region with
`_s = _stop` is exactly the valid empty segment reported by `empty()` —
never an error. -/
theorem region_invariant_preserved (buf : List Char) (fl : List Int)
    (p : ShellParser) (first last : Nat) (hwf : p.wf buf)
    (hfl : first ≤ last) (hlast : last ≤ buf.length) :
    (ShellParser.mkRange first last).wf buf ∧
    (ShellParser.fromStr buf).wf buf ∧
    (p.first_delimited buf fl).wf buf ∧
    (p.next_delimited buf fl).wf buf ∧
    p.endp.wf buf ∧
    (p.conditional_begin buf).wf buf ∧
    (p.pipeline_begin buf).wf buf ∧
    (p.command_begin buf).wf buf ∧
    (p.conditional_next buf).wf buf ∧
    (p.pipeline_next buf).wf buf ∧
    (p.command_next buf).wf buf ∧
    (p.empty = true ↔ p._s = p._stop) := by
  refine ⟨⟨hfl, le_refl _, hlast⟩,
    ⟨Nat.zero_le _, le_refl _, le_refl _⟩,
    first_delimited_wf buf fl p hwf,
    next_delimited_wf buf fl p hwf,
    ⟨le_refl _, hwf.2.1, hwf.2.2⟩,
    first_delimited_wf buf CONDITIONAL_DELIM p hwf,
    first_delimited_wf buf PIPELINE_DELIM p hwf,
    first_delimited_wf buf COMMAND_DELIM p hwf,
    next_delimited_wf buf CONDITIONAL_DELIM p hwf,
    next_delimited_wf buf PIPELINE_DELIM p hwf,
    next_delimited_wf buf COMMAND_DELIM p hwf,
    ?_⟩
  simp [ShellParser.empty]

/-- Witness for C2 at the command line `a;b`, region `[0, 1)` with
buffer end 3, constructor range `[1, 3)`. -/
theorem region_invariant_preserved_witness :
    (⟨0, 1, 3⟩ : ShellParser).wf ("a;b".toList) ∧ 1 ≤ 3 ∧
    3 ≤ ("a;b".toList).length ∧
    ((ShellParser.mkRange 1 3).wf ("a;b".toList) ∧
    (ShellParser.fromStr ("a;b".toList)).wf ("a;b".toList) ∧
    ((⟨0, 1, 3⟩ : ShellParser).first_delimited ("a;b".toList)
      PIPELINE_DELIM).wf ("a;b".toList) ∧
    ((⟨0, 1, 3⟩ : ShellParser).next_delimited ("a;b".toList)
      PIPELINE_DELIM).wf ("a;b".toList) ∧
    (⟨0, 1, 3⟩ : ShellParser).endp.wf ("a;b".toList) ∧
    ((⟨0, 1, 3⟩ : ShellParser).conditional_begin ("a;b".toList)).wf ("a;b".toList) ∧
    ((⟨0, 1, 3⟩ : ShellParser).pipeline_begin ("a;b".toList)).wf ("a;b".toList) ∧
    ((⟨0, 1, 3⟩ : ShellParser).command_begin ("a;b".toList)).wf ("a;b".toList) ∧
    ((⟨0, 1, 3⟩ : ShellParser).conditional_next ("a;b".toList)).wf ("a;b".toList) ∧
    ((⟨0, 1, 3⟩ : ShellParser).pipeline_next ("a;b".toList)).wf ("a;b".toList) ∧
    ((⟨0, 1, 3⟩ : ShellParser).command_next ("a;b".toList)).wf ("a;b".toList) ∧
    ((⟨0, 1, 3⟩ : ShellParser).empty = true ↔
      (⟨0, 1, 3⟩ : ShellParser)._s = (⟨0, 1, 3⟩ : ShellParser)._stop)) :=
  ⟨by decide, by decide, by decide,
    region_invariant_preserved ("a;b".toList) PIPELINE_DELIM ⟨0, 1, 3⟩ 1 3
      (by decide) (by decide) (by decide)⟩

/-- Claim C4: after any `next_delimited` the new region's start equals
the prior region's stop plus the consumed token's length — for regions
whose stop sits at a token start (no leading whitespace), which is the
case for every region produced by `first_delimited` or `next_delimited`,
as the two whitespace-cleanliness conjuncts show — the consumed token
being the single delimiter (multi-character operators as one unit, the
end-of-line token having length zero); start positions strictly advance
until the region is exhausted. -/
theorem next_delimited_monotone (buf : List Char) (fl : List Int)
    (p : ShellParser) (hwf : p.wf buf)
    (hcl : (tokScan (sliceB buf p._stop p._end)).ws = 0) :
    (p.next_delimited buf fl)._s =
      p._stop + (tokScan (sliceB buf p._stop p._end)).len ∧
    (tokScan (sliceB buf (p.first_delimited buf fl)._stop
      (p.first_delimited buf fl)._end)).ws = 0 ∧
    (tokScan (sliceB buf (p.next_delimited buf fl)._stop
      (p.next_delimited buf fl)._end)).ws = 0 ∧
    (p._s = p._end ∨ p._s < (p.next_delimited buf fl)._s) := by
  refine ⟨?_, ?_, ?_, ?_⟩
  · simp only [ShellParser.next_delimited]
    omega
  · rw [tokScan_ws]
    exact findDelimF_clean buf fl _ _ _ _
  · rw [tokScan_ws]
    exact findDelimF_clean buf fl _ _ _ _
  · by_cases hne : p._s = p._end
    · exact Or.inl hne
    · exact Or.inr (next_delimited_progress buf fl p hwf hne)

/-- Witness for C4 at the command line `a;b`, region `[0, 1)` with
buffer end 3 (stop sits on the `;` delimiter). -/
theorem next_delimited_monotone_witness :
    (⟨0, 1, 3⟩ : ShellParser).wf ("a;b".toList) ∧
    (tokScan (sliceB ("a;b".toList) (⟨0, 1, 3⟩ : ShellParser)._stop
      (⟨0, 1, 3⟩ : ShellParser)._end)).ws = 0 ∧
    (((⟨0, 1, 3⟩ : ShellParser).next_delimited ("a;b".toList)
        CONDITIONAL_DELIM)._s =
      (⟨0, 1, 3⟩ : ShellParser)._stop +
        (tokScan (sliceB ("a;b".toList) (⟨0, 1, 3⟩ : ShellParser)._stop
          (⟨0, 1, 3⟩ : ShellParser)._end)).len ∧
    (tokScan (sliceB ("a;b".toList)
      ((⟨0, 1, 3⟩ : ShellParser).first_delimited ("a;b".toList)
        CONDITIONAL_DELIM)._stop
      ((⟨0, 1, 3⟩ : ShellParser).first_delimited ("a;b".toList)
        CONDITIONAL_DELIM)._end)).ws = 0 ∧
    (tokScan (sliceB ("a;b".toList)
      ((⟨0, 1, 3⟩ : ShellParser).next_delimited ("a;b".toList)
        CONDITIONAL_DELIM)._stop
      ((⟨0, 1, 3⟩ : ShellParser).next_delimited ("a;b".toList)
        CONDITIONAL_DELIM)._end)).ws = 0 ∧
    ((⟨0, 1, 3⟩ : ShellParser)._s = (⟨0, 1, 3⟩ : ShellParser)._end ∨
      (⟨0, 1, 3⟩ : ShellParser)._s <
        ((⟨0, 1, 3⟩ : ShellParser).next_delimited ("a;b".toList)
          CONDITIONAL_DELIM)._s)) :=
  ⟨by decide, by decide,
    next_delimited_monotone ("a;b".toList) CONDITIONAL_DELIM ⟨0, 1, 3⟩
      (by decide) (by decide)⟩
